import Mathlib

/-!
Shallow embedding of the peppa repository's data pipeline (src/pig/data.py),
together with proofs about its triplet sampler, batch padding and cropping,
cache-key computation, positive-pair sampler, worker partitioning,
normalization statistics and cached-dataset indexing.

Machine floats of the source are modelled as exact rationals, tensors as
nested lists (with the reduced or padded dimensions kept explicit), Python
dicts as ordered association lists, and Python exceptions as an error type
threaded through Except.
-/

namespace PeppaPig

/-! Model of the Python exceptions raised by the code under study. -/

inductive PyErr where
  | valueError (msg : String)
  | attributeError (name : String)
  | nameError (name : String)
  | indexError (msg : String)
  | fileNotFoundError (msg : String)
deriving DecidableEq

/-! JSON values as they occur in the dataset configuration mappings
(split list, target size pair, fragment type, duration, jitter flag).
An ordered association list models the Python dict, preserving insertion
order exactly as json.dumps serializes it. -/

inductive JPrim where
  | str (s : String)
  | num (q : ℚ)
  | bool (b : Bool)
  | null
deriving DecidableEq

inductive JValue where
  | prim (p : JPrim)
  | arr (xs : List JPrim)
deriving DecidableEq

def escapeJ (s : String) : String :=
  String.mk (s.data.flatMap fun c => if c = '"' ∨ c = '\\' then ['\\', c] else [c])

def jstr (s : String) : String := "\"" ++ escapeJ s ++ "\""

def dumpPrim : JPrim → String
  | .str s => jstr s
  | .num q => toString q
  | .bool b => if b then "true" else "false"
  | .null => "null"

def dumpArr : List JPrim → String
  | [] => ""
  | [x] => dumpPrim x
  | x :: xs => dumpPrim x ++ ", " ++ dumpArr xs

def dumpValue : JValue → String
  | .prim p => dumpPrim p
  | .arr xs => "[" ++ dumpArr xs ++ "]"

def dumpObjEntries : List (String × JValue) → String
  | [] => ""
  | [(k, v)] => jstr k ++ ": " ++ dumpValue v
  | (k, v) :: xs => jstr k ++ ": " ++ dumpValue v ++ ", " ++ dumpObjEntries xs

/-- Models json.dumps applied to the configuration dict (data.py line 304):
default separators, keys in insertion order. -/
def jsonDumps (config : List (String × JValue)) : String :=
  "\x7b" ++ dumpObjEntries config ++ "\x7d"

/-- Models hashlib.sha256(...).hexdigest() of the external hashlib library:
a deterministic digest of the input bytes rendered in hexadecimal.  The
development relies only on the digest being a pure function of its input,
which is the documented behaviour of the real hash. -/
def sha256hex (s : String) : String :=
  String.mk (Nat.toDigits 16 (s.data.foldl (fun a c => (a * 65599 + c.toNat) % 2 ^ 256) 0))

/-- config_id (data.py lines 301-305): the hex digest of the serialized
configuration mapping. -/
def config_id (config : List (String × JValue)) : String :=
  sha256hex (jsonDumps config)

/-! Tensor model for the batch collation helpers (data.py lines 57-71).
An audio tensor has shape (channels, time): it is a list of channels, each
a list of samples over time.  A video tensor has shape
(channels, time, height, width); the fully reduced spatial dimensions are
flattened, so a channel is a list of frames, each frame a list of pixel
values.  shape[1], the time dimension, is the length of the first channel. -/

abbrev ATensor := List (List ℚ)

abbrev VTensor := List (List (List ℚ))

/-- shape[1] of a (channels, time, ...) tensor: the length of its first
channel along the time axis. -/
def tdim {α : Type} (x : List (List α)) : ℕ := (x.headD []).length

/-- Rectangularity along the time axis: every channel of the tensor has the
same time length, as any real torch tensor does. -/
def Rect {α : Type} (x : List (List α)) : Prop := ∀ ch ∈ x, ch.length = tdim x

instance {α : Type} (x : List (List α)) : Decidable (Rect x) :=
  List.decidableBAll _ x

/-- Model of Python max over the (nonempty) generator of shape[1] values. -/
def batchMax (sizes : List ℕ) : ℕ := sizes.foldr max 0

/-- Model of Python min over the (nonempty) generator of shape[1] values. -/
def batchMin : List ℕ → ℕ
  | [] => 0
  | n :: ns => ns.foldr min n

/-- crop_audio_batch (data.py lines 57-59): truncate every channel of every
tensor to the minimum time length in the batch, then stack. -/
def crop_audio_batch (batch : List ATensor) : List ATensor :=
  let size := batchMin (batch.map tdim)
  batch.map fun x => x.map fun ch => ch.take size

/-- pad_audio_batch (data.py lines 61-63): F.pad each tensor at the end of
its time axis with size - x.shape[1] zeros, then stack. -/
def pad_audio_batch (batch : List ATensor) : List ATensor :=
  let size := batchMax (batch.map tdim)
  batch.map fun x => x.map fun ch => ch ++ List.replicate (size - tdim x) (0 : ℚ)

/-- crop_video_batch (data.py lines 65-67): x[:, :size, :, :]. -/
def crop_video_batch (batch : List VTensor) : List VTensor :=
  let size := batchMin (batch.map tdim)
  batch.map fun x => x.map fun ch => ch.take size

/-- The all-zero frame F.pad appends along the video time axis; its spatial
extent is that of the tensor being padded. -/
def vzeroFrame (x : VTensor) : List ℚ :=
  List.replicate (((x.headD []).headD []).length) (0 : ℚ)

/-- pad_video_batch (data.py lines 69-71): F.pad with (0,0, 0,0, 0, k)
appends k all-zero frames at the end of the time axis. -/
def pad_video_batch (batch : List VTensor) : List VTensor :=
  let size := batchMax (batch.map tdim)
  batch.map fun x => x.map fun ch => ch ++ List.replicate (size - tdim x) (vzeroFrame x)

/-! The dataclasses of data.py. -/

/-- Clip (data.py lines 22-30). -/
structure Clip where
  video : VTensor
  audio : ATensor
  duration : ℚ
  filename : String
  offset : Option ℚ := none
  index : Option ℕ := none
deriving DecidableEq

/-- Pair (data.py lines 32-38). -/
structure Pair where
  video : VTensor
  audio : ATensor
  video_idx : ℕ
  audio_idx : ℕ
deriving DecidableEq

/-- Triplet (data.py lines 423-427), at the types produced by triplets(). -/
structure Triplet where
  anchor : ATensor
  positive : VTensor
  negative : VTensor
deriving DecidableEq

/-- Raw decoded clip as delivered by moviepy: frames is the iter_frames()
sequence, each frame height × width × colour channels with byte values;
audio is the to_soundarray() output, time × audio channels. -/
structure RawClip where
  frames : List (List (List (List ℚ)))
  audio : List (List ℚ)
  duration : ℚ
  filename : String
  offset : Option ℚ := none
deriving DecidableEq

/-- torch.stack(frames).permute(3, 0, 1, 2) with the frame/255 scaling of
featurize_clip: the (time, height, width, colour) stack becomes a
(colour, time, height, width) video tensor, spatial dims flattened. -/
def vpermute (frames : List (List (List (List ℚ)))) : VTensor :=
  let nchan := (((frames.headD []).headD []).headD []).length
  (List.range nchan).map fun c =>
    frames.map fun f => f.flatMap fun row => row.map fun px => px.getD c 0 / 255

/-- Mean over the channel dimension of one audio sample row. -/
def rowMean (row : List ℚ) : ℚ := row.sum / (row.length : ℚ)

/-- featurize_clip (data.py lines 179-191): with at least one decoded frame,
build the Clip; with zero frames raise ValueError("Clip has zero frames."). -/
def featurize_clip (transform : VTensor → VTensor) (clip : RawClip) : Except PyErr Clip :=
  if clip.frames.length > 0 then
    .ok { video := transform (vpermute clip.frames)
        , audio := [clip.audio.map rowMean]
        , duration := clip.duration
        , filename := clip.filename
        , offset := clip.offset }
  else
    .error (.valueError "Clip has zero frames.")

/-- Attribute lookup on a PeppaPigIterableDataset instance for the method
names that denote clip featurization.  The class body (data.py lines
155-262) defines featurize_clip but no method named with a leading
underscore variant of it, so that lookup fails with AttributeError. -/
def methodTable (transform : VTensor → VTensor) (name : String) :
    Option (RawClip → Except PyErr Clip) :=
  if name = "featurize_clip" then some (featurize_clip transform) else none

/-- _clips (data.py lines 193-198).  The loop body runs
`yield self._featurize_clip(clip)` under `except ValueError(e): pass`.
The attribute lookup raises AttributeError (the method is featurize_clip);
matching any exception against the handler evaluates the expression
ValueError(e), whose name e is unbound at that point, so a NameError
replaces the original exception and the iteration aborts. -/
def _clips (transform : VTensor → VTensor) (clips : List RawClip) :
    Except PyErr (List Clip) :=
  clips.mapM fun clip =>
    match (match methodTable transform "_featurize_clip" with
           | some f => f clip
           | none => Except.error (PyErr.attributeError "_featurize_clip")) with
    | .ok c => Except.ok c
    | .error _ => Except.error (PyErr.nameError "e")

/-! PeppaPigIterableDataset construction and clip_dir. -/

/-- Instance state after PeppaPigIterableDataset.__init__ (data.py lines
156-177).  The settings field snapshots self.__dict__ at line 171, i.e. the
five attributes assigned before it, in insertion order; transform and
split_spec are assigned afterwards and are not part of settings (and play no
role in clip_dir).  The permapath field is an attribute slot: none means the
attribute was never assigned; the constructor has no parameter for it and
never assigns it. -/
structure DatasetState where
  split : List String
  target_size : ℕ × ℕ
  fragment_type : String
  duration : Option ℚ
  jitter : Bool
  settings : List (String × JValue)
  permapath : Option (Option String)

/-- PeppaPigIterableDataset.__init__ (data.py lines 156-177) with the
defaults split=['val'], target_size=(180, 100), fragment_type='dialog',
duration=3.2, jitter=False supplied by the caller. -/
def datasetInit (split : List String) (target_size : ℕ × ℕ) (fragment_type : String)
    (duration : Option ℚ) (jitter : Bool) : DatasetState :=
  { split := split
  , target_size := target_size
  , fragment_type := fragment_type
  , duration := duration
  , jitter := jitter
  , settings := [ ("split", .arr (split.map .str))
                , ("target_size", .arr [.num target_size.1, .num target_size.2])
                , ("fragment_type", .prim (.str fragment_type))
                , ("duration", .prim (match duration with | some d => .num d | none => .null))
                , ("jitter", .prim (.bool jitter)) ]
  , permapath := none }

/-- clip_dir (data.py lines 200-204): reading self.permapath raises
AttributeError when the attribute was never assigned; were it None the
hash-derived directory would be returned, and a set path returned as is. -/
def clip_dir (s : DatasetState) : Except PyErr String :=
  match s.permapath with
  | none => .error (.attributeError "permapath")
  | some none => .ok ("data/out/clips-" ++ config_id s.settings ++ "/")
  | some (some p) => .ok p

/-! The positive-pair sampler and dataset iteration. -/

/-- _positives (data.py lines 251-257): enumerate the group, run the double
loop, and emit a Pair exactly when the inner index equals the outer one. -/
def _positives (items : List Clip) : List Pair :=
  let clips := items.enum
  clips.flatMap fun ia =>
    clips.filterMap fun jb =>
      if jb.1 = ia.1 then
        some { video := ia.2.video, audio := jb.2.audio
             , video_idx := ia.1, audio_idx := jb.1 }
      else none

/-- itertools.groupby: split a list into maximal runs of consecutive
elements with equal keys, each run tagged with its key. -/
def groupRuns {α K : Type} (key : α → K) [DecidableEq K] : List α → List (K × List α)
  | [] => []
  | [x] => [(key x, [x])]
  | x :: y :: rest =>
    match groupRuns key (y :: rest) with
    | [] => [(key x, [x])]
    | (k, g) :: gs =>
      if key x = key y then (key x, x :: g) :: gs
      else (key x, [x]) :: (k, g) :: gs

/-- PeppaPigIterableDataset.__iter__ (data.py lines 260-262) applied to an
already featurized clip stream: group consecutive clips by filename and
concatenate the positive pairs of every group. -/
def iterPairs (clips : List Clip) : List Pair :=
  ((groupRuns (fun c => c.filename) clips).map fun g => _positives g.2).flatten

/-- PeppaPigIterableDataset.__iter__ composed with the _clips generator it
actually iterates: the featurization error of _clips aborts the whole
iteration before any grouping happens. -/
def iterDataset (transform : VTensor → VTensor) (raw : List RawClip) :
    Except PyErr (List Pair) :=
  (_clips transform raw).map iterPairs

/-! The triplet sampler (data.py lines 417-471). -/

/-- pairs (data.py lines 417-421): pair up consecutive elements, dropping
the odd element out. -/
def pairs {α : Type} : List α → List (α × α)
  | x :: y :: rest => (x, y) :: pairs rest
  | _ => []

/-- Comparison by a rational-valued key, as Python sorted(xs, key=key)
compares. -/
def keyLe {α : Type} (key : α → ℚ) (a b : α) : Prop := key a ≤ key b

instance {α : Type} (key : α → ℚ) : DecidableRel (keyLe key) :=
  fun a b => inferInstanceAs (Decidable (key a ≤ key b))

instance {α : Type} (key : α → ℚ) : IsTotal α (keyLe key) :=
  ⟨fun a b => le_total (key a) (key b)⟩

instance {α : Type} (key : α → ℚ) : IsTrans α (keyLe key) :=
  ⟨fun _ _ _ => le_trans⟩

/-- Python sorted(xs, key=key): a stable sort producing a permutation of xs
that is ordered by the key. -/
def sortByKey {α : Type} (key : α → ℚ) (xs : List α) : List α :=
  List.insertionSort (keyLe key) xs

/-- grouped (data.py lines 470-471): groupby over the key-sorted list. -/
def grouped {α : Type} (key : α → ℚ) (xs : List α) : List (ℚ × List α) :=
  groupRuns key (sortByKey key xs)

/-- _triplets (data.py lines 444-449).  The two random choices are passed in
explicitly: shuffle models shuffled (any permutation of its input, data.py
lines 467-468) and sample2 models random.sample(p, 2) (the pair in either
order).  Every theorem below quantifies over all such realizations. -/
def _triplets {α : Type} (shuffle : List α → List α) (sample2 : α × α → α × α)
    (criterion : α → ℚ) (clips : List α) : List (α × α) :=
  ((grouped criterion clips).map fun g => (pairs (shuffle g.2)).map sample2).flatten

/-- triplets (data.py lines 452-457): sample target/distractor pairs keyed
by duration and package them as Triplet values. -/
def triplets (shuffle : List Clip → List Clip) (sample2 : Clip × Clip → Clip × Clip)
    (clips : List Clip) : List Triplet :=
  (_triplets shuffle sample2 (fun x => x.duration) clips).map fun td =>
    { anchor := td.1.audio, positive := td.1.video, negative := td.2.video }

/-! Worker partitioning in _raw_clips (data.py lines 222-238). -/

/-- per_worker = int(math.ceil(len(paths) / float(num_workers))), i.e. the
ceiling of n / W (the float division is exact at these magnitudes). -/
def per_worker (n W : ℕ) : ℕ := (n + W - 1) / W

/-- first = worker_id * per_worker. -/
def workerFirst (n W w : ℕ) : ℕ := w * per_worker n W

/-- last = min(first + per_worker, len(paths)). -/
def workerLast (n W w : ℕ) : ℕ := min (workerFirst n W w + per_worker n W) n

/-- The index range [first, last) of worker w. -/
def workerRange (n W w : ℕ) : Finset ℕ :=
  Finset.Ico (workerFirst n W w) (workerLast n W w)

/-- paths[first:last] for worker w. -/
def workerSlice {α : Type} (paths : List α) (W w : ℕ) : List α :=
  let n := paths.length
  (paths.drop (workerFirst n W w)).take (workerLast n W w - workerFirst n W w)

/-! Normalization statistics, get_stats (data.py lines 272-296).
A collated batch holds a (batch, 3, time, height, width) video tensor and a
(batch, 1, time) audio tensor; the statistics reduce every dimension except
the channel one, so a batch is modelled per channel by the list of all its
elements in that channel.  The tensor accumulators of the source are
elementwise, so they are modelled by their per-channel projections. -/

structure Batch where
  video : Fin 3 → List ℚ
  audio : List ℚ

/-- Channel c of the mean-pass accumulator video_sum. -/
def video_sum (loader : List Batch) (c : Fin 3) : ℚ :=
  loader.foldl (fun a b => a + (b.video c).sum) 0

/-- Channel c of the mean-pass accumulator video_count. -/
def video_count (loader : List Batch) (c : Fin 3) : ℚ :=
  loader.foldl (fun a b => a + ((b.video c).length : ℚ)) 0

/-- video_mean = video_sum / video_count. -/
def video_mean (loader : List Batch) (c : Fin 3) : ℚ :=
  video_sum loader c / video_count loader c

/-- Channel c of the second-pass accumulator video_sse: the sum of squared
deviations from the first-pass mean. -/
def video_sse (loader : List Batch) (c : Fin 3) : ℚ :=
  loader.foldl
    (fun a b => a + ((b.video c).map fun x => (x - video_mean loader c) ^ 2).sum) 0

/-- The audio accumulators, single channel. -/
def audio_sum (loader : List Batch) : ℚ :=
  loader.foldl (fun a b => a + b.audio.sum) 0

def audio_count (loader : List Batch) : ℚ :=
  loader.foldl (fun a b => a + (b.audio.length : ℚ)) 0

def audio_mean (loader : List Batch) : ℚ :=
  audio_sum loader / audio_count loader

def audio_sse (loader : List Batch) : ℚ :=
  loader.foldl (fun a b => a + (b.audio.map fun x => (x - audio_mean loader) ^ 2).sum) 0

/-- Stats (data.py lines 264-270), with the squeezed shapes: a per-channel
mean and standard deviation for video, a scalar pair for audio. -/
structure Stats where
  video_mean : Fin 3 → ℚ
  video_std : Fin 3 → ℝ
  audio_mean : ℚ
  audio_std : ℝ

/-- get_stats (data.py lines 272-296): the mean pass, then the standard
deviation pass; ** 0.5 on the nonnegative radicand is the real square
root. -/
noncomputable def get_stats (loader : List Batch) : Stats :=
  { video_mean := fun c => video_mean loader c
  , video_std := fun c => Real.sqrt (video_sse loader c / video_count loader c)
  , audio_mean := audio_mean loader
  , audio_std := Real.sqrt (audio_sse loader / audio_count loader) }

/-! PeppaPigDataset length and item access (data.py lines 125-149).
The cache directory is modelled as an ordered file listing: glob("*.pt")
sees exactly the pt-named entries, torch.load reads an entry by name. -/

inductive FileName where
  | pt (idx : ℕ)
  | other (s : String)
deriving DecidableEq

abbrev CacheDir (α : Type) := List (FileName × α)

def isPtFile : FileName → Bool
  | .pt _ => true
  | .other _ => false

/-- glob.glob(cache_dir/*.pt): the pt-named entries of the directory. -/
def globPt {α : Type} (dir : CacheDir α) : List (FileName × α) :=
  dir.filter fun e => isPtFile e.1

/-- self.length = len(glob.glob(cache_dir/*.pt)) at construction time
(data.py line 140). -/
def datasetLength {α : Type} (dir : CacheDir α) : ℕ := (globPt dir).length

/-- torch.load on a file of the directory. -/
def torchLoad {α : Type} (dir : CacheDir α) (name : FileName) : Option α :=
  (dir.find? fun e => e.1 == name).map (·.2)

/-- PeppaPigDataset.__getitem__ (data.py lines 145-149): indices at or past
self.length raise IndexError before any load is attempted; smaller indices
load idx.pt. -/
def getitem {α : Type} (dir : CacheDir α) (idx : ℕ) : Except PyErr α :=
  if idx ≥ datasetLength dir then .error (.indexError "Index out of range")
  else
    match torchLoad dir (.pt idx) with
    | some x => .ok x
    | none => .error (.fileNotFoundError "missing item file")

/-- The cache directory produced by PeppaPigDataset.__init__ with caching
enabled (data.py lines 132-137): settings.json first, then one i.pt file
per enumerated dataset item. -/
def cachedDir {α : Type} (settingsBlob : α) (items : List α) : CacheDir α :=
  (FileName.other "settings.json", settingsBlob) ::
    (items.enum.map fun p => (FileName.pt p.1, p.2))

/-! Concrete inputs used by the witness theorems. -/

def clipA : Clip :=
  { video := [[[1]]], audio := [[1]], duration := 3, filename := "197_1.avi" }

def clipB : Clip :=
  { video := [[[2]]], audio := [[2]], duration := 3, filename := "197_1.avi" }

def clipC : Clip :=
  { video := [[[3]]], audio := [[3]], duration := 4, filename := "197_2.avi" }

def rawGood : RawClip :=
  { frames := [[[[255, 0, 0]]]], audio := [[0, 0]], duration := 3, filename := "197_1.avi" }

def rawZeroFrames : RawClip :=
  { frames := [], audio := [[0, 0]], duration := 3, filename := "197_1.avi" }

def audioBatchW : List ATensor := [[[1, 2, 3]], [[4]]]

def videoBatchW : List VTensor := [[[[1], [2]]], [[[5]]]]

def defaultSettings : List (String × JValue) :=
  (datasetInit ["val"] (180, 100) "dialog" (some (16 / 5)) false).settings

/-! Helper lemmas. -/

theorem find?_enumFrom_pt {α : Type} (items : List α) :
    ∀ (n k : ℕ) (d : α), k < items.length →
      ((List.enumFrom n items).map fun p => (FileName.pt p.1, p.2)).find?
        (fun e => e.1 == FileName.pt (n + k)) =
      some (FileName.pt (n + k), items.getD k d) := by
  induction items with
  | nil => intro n k d hk; simp at hk
  | cons x xs ih =>
    intro n k d hk
    rw [List.enumFrom_cons]
    match k with
    | 0 => simp [List.find?]
    | k + 1 =>
      have hk' : k < xs.length := by simpa using hk
      have hrec := ih (n + 1) k d hk'
      rw [show n + (k + 1) = n + 1 + k from by omega]
      have hb : (FileName.pt n == FileName.pt (n + 1 + k)) = false := by
        simp only [beq_eq_false_iff_ne, ne_eq, FileName.pt.injEq]
        omega
      simpa [List.find?, hb] using hrec

theorem le_foldr_max (l : List ℕ) (i a : ℕ) (ha : a ∈ l) : a ≤ l.foldr max i := by
  induction l with
  | nil => cases ha
  | cons b t ih =>
    rcases List.mem_cons.mp ha with h | h
    · subst h; exact le_max_left _ _
    · exact le_trans (ih h) (le_max_right _ _)

theorem foldr_min_le (l : List ℕ) (i a : ℕ) (ha : a ∈ l) : l.foldr min i ≤ a := by
  induction l with
  | nil => cases ha
  | cons b t ih =>
    rcases List.mem_cons.mp ha with h | h
    · subst h; exact min_le_left _ _
    · exact le_trans (min_le_right _ _) (ih h)

theorem foldr_min_le_init (l : List ℕ) (i : ℕ) : l.foldr min i ≤ i := by
  induction l with
  | nil => exact le_refl i
  | cons b t ih => exact le_trans (min_le_right _ _) ih

theorem mem_le_batchMax (sizes : List ℕ) (a : ℕ) (ha : a ∈ sizes) : a ≤ batchMax sizes :=
  le_foldr_max sizes 0 a ha

theorem batchMin_le_mem (sizes : List ℕ) (a : ℕ) (ha : a ∈ sizes) : batchMin sizes ≤ a := by
  match sizes, ha with
  | n :: ns, ha =>
    rcases List.mem_cons.mp ha with h | h
    · subst h; exact foldr_min_le_init ns a
    · exact foldr_min_le ns n a h

theorem padBatch_spec {β : Type} (batch : List (List (List β))) (size : ℕ)
    (zval : List (List β) → β) (out : List (List (List β)))
    (hout : out = batch.map fun x => x.map fun ch => ch ++ List.replicate (size - tdim x) (zval x))
    (hsize : ∀ x ∈ batch, tdim x ≤ size) (hR : ∀ x ∈ batch, Rect x) :
    (∀ y ∈ out, ∀ ch ∈ y, ch.length = size)
    ∧ ∀ i, i < batch.length → ∀ j : ℕ,
        ((out.getD i []).getD j []).take ((batch.getD i []).getD j []).length
            = (batch.getD i []).getD j []
        ∧ ∀ a ∈ ((out.getD i []).getD j []).drop ((batch.getD i []).getD j []).length,
            a = zval (batch.getD i []) := by
  subst hout
  constructor
  · intro y hy ch hch
    obtain ⟨x, hx, rfl⟩ := List.mem_map.mp hy
    obtain ⟨ch0, hch0, rfl⟩ := List.mem_map.mp hch
    have h1 : ch0.length = tdim x := hR x hx ch0 hch0
    have h2 : tdim x ≤ size := hsize x hx
    simp [h1]
    omega
  · intro i hi j
    have hget : (batch.map fun x => x.map fun ch =>
        ch ++ List.replicate (size - tdim x) (zval x)).getD i [] =
        (batch.getD i []).map fun ch =>
          ch ++ List.replicate (size - tdim (batch.getD i [])) (zval (batch.getD i [])) := by
      rw [List.getD_eq_getElem _ _ (by simpa using hi), List.getElem_map,
        List.getD_eq_getElem _ _ hi]
    rw [hget]
    by_cases hj : j < (batch.getD i []).length
    · have hgj : ((batch.getD i []).map fun ch =>
          ch ++ List.replicate (size - tdim (batch.getD i [])) (zval (batch.getD i []))).getD j [] =
          ((batch.getD i []).getD j []) ++
            List.replicate (size - tdim (batch.getD i [])) (zval (batch.getD i [])) := by
        rw [List.getD_eq_getElem _ _ (by simpa using hj), List.getElem_map,
          List.getD_eq_getElem _ _ hj]
      rw [hgj]
      refine ⟨List.take_left _ _, fun a ha => ?_⟩
      rw [List.drop_left] at ha
      exact List.eq_of_mem_replicate ha
    · have hg1 : ((batch.getD i []).map fun ch =>
          ch ++ List.replicate (size - tdim (batch.getD i [])) (zval (batch.getD i []))).getD j []
            = [] := by
        rw [List.getD_eq_getElem?_getD, List.getElem?_eq_none (by simpa using hj)]
        rfl
      have hg2 : (batch.getD i []).getD j [] = [] := by
        rw [List.getD_eq_getElem?_getD, List.getElem?_eq_none (by omega)]
        rfl
      rw [hg1, hg2]
      simp

theorem cropBatch_spec {β : Type} (batch : List (List (List β))) (size : ℕ)
    (out : List (List (List β)))
    (hout : out = batch.map fun x => x.map fun ch => ch.take size)
    (hsize : ∀ x ∈ batch, size ≤ tdim x) (hR : ∀ x ∈ batch, Rect x) :
    ∀ y ∈ out, ∀ ch ∈ y, ch.length = size := by
  subst hout
  intro y hy ch hch
  obtain ⟨x, hx, rfl⟩ := List.mem_map.mp hy
  obtain ⟨ch0, hch0, rfl⟩ := List.mem_map.mp hch
  have h1 : ch0.length = tdim x := hR x hx ch0 hch0
  have h2 : size ≤ tdim x := hsize x hx
  simp
  omega

theorem take_drop_take {α : Type} (l : List α) (a b : ℕ) (hab : a ≤ b) :
    l.take (min a l.length) ++ (l.drop a).take (min b l.length - a) =
      l.take (min b l.length) := by
  by_cases h : a ≤ l.length
  · have h1 : min a l.length = a := by omega
    rw [h1, show min b l.length = a + (min b l.length - a) from by omega, List.take_add,
      Nat.add_sub_cancel_left]
  · have h1 : min a l.length = l.length := by omega
    have h2 : min b l.length = l.length := by omega
    rw [h1, h2, List.take_length, List.drop_eq_nil_of_le (by omega), List.take_nil,
      List.append_nil]

theorem n_le_mul_per_worker (n W : ℕ) (hW : 1 ≤ W) : n ≤ W * per_worker n W := by
  rw [per_worker]
  have hdm := Nat.div_add_mod (n + W - 1) W
  have hmlt : (n + W - 1) % W < W := Nat.mod_lt _ (by omega)
  obtain ⟨p, hp⟩ : ∃ p, p = W * ((n + W - 1) / W) := ⟨_, rfl⟩
  rw [← hp] at hdm ⊢
  omega

theorem flatten_workerSlices {α : Type} (paths : List α) (W : ℕ) :
    ∀ k, ((List.range k).map (workerSlice paths W)).flatten =
      paths.take (min (k * per_worker paths.length W) paths.length) := by
  intro k
  induction k with
  | zero => simp
  | succ k ih =>
    rw [List.range_succ, List.map_append, List.flatten_append, ih]
    simp only [List.map_cons, List.map_nil, List.flatten_cons, List.flatten_nil,
      List.append_nil]
    rw [workerSlice, workerFirst, workerLast, workerFirst, Nat.succ_mul]
    exact take_drop_take paths (k * per_worker paths.length W) _ (by omega)

/-! C4: determinism of the cache key. -/

/-- C4: config_id is a pure function of the configuration mapping: two calls
on identical configuration mappings return the same hash digest, so
identical configuration always resolves to the same cache directory. -/
theorem C4_config_id_deterministic (c₁ c₂ : List (String × JValue)) (h : c₁ = c₂) :
    config_id c₁ = config_id c₂ := by rw [h]

theorem C4_witness :
    defaultSettings = defaultSettings ∧
      config_id defaultSettings = config_id defaultSettings :=
  ⟨rfl, C4_config_id_deterministic defaultSettings defaultSettings rfl⟩

/-! C8: clip_dir on a freshly constructed dataset. -/

/-- C8: evidence of the code defect.  PeppaPigIterableDataset.__init__ has no
parameter for a permanent cache path and never assigns self.permapath, so
for every constructor argument list clip_dir() raises AttributeError instead
of returning the hash-derived directory "data/out/clips-(hash)/". -/
theorem C8_clip_dir_raises (split : List String) (ts : ℕ × ℕ) (ft : String)
    (dur : Option ℚ) (jit : Bool) :
    clip_dir (datasetInit split ts ft dur jit) = .error (.attributeError "permapath") := rfl

/-! C5: the per-clip decode error is not caught. -/

/-- C5: evidence of the code defect.  featurize_clip does raise
ValueError("Clip has zero frames.") on a zero-frame clip, but _clips never
skips a clip and continues: on any nonempty clip stream its loop body fails
(the attribute _featurize_clip does not exist, and matching the resulting
exception against the handler `except ValueError(e)` evaluates the unbound
name e), so the enclosing iteration aborts with a NameError. -/
theorem C5_decode_error_not_recoverable :
    featurize_clip id rawZeroFrames = .error (.valueError "Clip has zero frames.")
    ∧ ∀ (transform : VTensor → VTensor) (rc : RawClip) (rest : List RawClip),
        _clips transform (rc :: rest) = .error (.nameError "e") :=
  ⟨rfl, fun _ _ _ => rfl⟩

/-! C2: batch padding and cropping shapes. -/

/-- C2: for nonempty batches of rectangular tensors, pad_audio_batch and
pad_video_batch keep the batch size and give every output channel the
maximum input time length, preserving each input channel as a prefix and
filling the remainder with zeros (never truncating); crop_audio_batch and
crop_video_batch give every output channel the minimum input time length. -/
theorem C2_pad_crop_batch_shapes (aB : List ATensor) (vB : List VTensor)
    (haNe : aB ≠ []) (hvNe : vB ≠ [])
    (haR : ∀ x ∈ aB, Rect x) (hvR : ∀ x ∈ vB, Rect x) :
    ((pad_audio_batch aB).length = aB.length
      ∧ (pad_video_batch vB).length = vB.length
      ∧ (crop_audio_batch aB).length = aB.length
      ∧ (crop_video_batch vB).length = vB.length)
    ∧ (∀ y ∈ pad_audio_batch aB, ∀ ch ∈ y, ch.length = batchMax (aB.map tdim))
    ∧ (∀ y ∈ pad_video_batch vB, ∀ ch ∈ y, ch.length = batchMax (vB.map tdim))
    ∧ (∀ y ∈ crop_audio_batch aB, ∀ ch ∈ y, ch.length = batchMin (aB.map tdim))
    ∧ (∀ y ∈ crop_video_batch vB, ∀ ch ∈ y, ch.length = batchMin (vB.map tdim))
    ∧ (∀ i, i < aB.length → ∀ j : ℕ,
        (((pad_audio_batch aB).getD i []).getD j []).take
            ((aB.getD i []).getD j []).length = (aB.getD i []).getD j []
        ∧ ∀ a ∈ (((pad_audio_batch aB).getD i []).getD j []).drop
              ((aB.getD i []).getD j []).length, a = 0)
    ∧ (∀ i, i < vB.length → ∀ j : ℕ,
        (((pad_video_batch vB).getD i []).getD j []).take
            ((vB.getD i []).getD j []).length = (vB.getD i []).getD j []
        ∧ ∀ f ∈ (((pad_video_batch vB).getD i []).getD j []).drop
              ((vB.getD i []).getD j []).length, ∀ a ∈ f, a = 0) := by
  have haMax : ∀ x ∈ aB, tdim x ≤ batchMax (aB.map tdim) :=
    fun x hx => mem_le_batchMax _ _ (List.mem_map_of_mem tdim hx)
  have hvMax : ∀ x ∈ vB, tdim x ≤ batchMax (vB.map tdim) :=
    fun x hx => mem_le_batchMax _ _ (List.mem_map_of_mem tdim hx)
  have haMin : ∀ x ∈ aB, batchMin (aB.map tdim) ≤ tdim x :=
    fun x hx => batchMin_le_mem _ _ (List.mem_map_of_mem tdim hx)
  have hvMin : ∀ x ∈ vB, batchMin (vB.map tdim) ≤ tdim x :=
    fun x hx => batchMin_le_mem _ _ (List.mem_map_of_mem tdim hx)
  have hpa := padBatch_spec aB (batchMax (aB.map tdim)) (fun _ => (0 : ℚ))
    (pad_audio_batch aB) rfl haMax haR
  have hpv := padBatch_spec vB (batchMax (vB.map tdim)) vzeroFrame
    (pad_video_batch vB) rfl hvMax hvR
  have hca := cropBatch_spec aB (batchMin (aB.map tdim)) (crop_audio_batch aB)
    rfl haMin haR
  have hcv := cropBatch_spec vB (batchMin (vB.map tdim)) (crop_video_batch vB)
    rfl hvMin hvR
  refine ⟨⟨?_, ?_, ?_, ?_⟩, hpa.1, hpv.1, hca, hcv, hpa.2, fun i hi j => ?_⟩
  · simp [pad_audio_batch]
  · simp [pad_video_batch]
  · simp [crop_audio_batch]
  · simp [crop_video_batch]
  · refine ⟨(hpv.2 i hi j).1, fun f hf a ha => ?_⟩
    have hz := (hpv.2 i hi j).2 f hf
    rw [hz] at ha
    exact List.eq_of_mem_replicate ha

theorem C2_witness :
    (audioBatchW ≠ [] ∧ videoBatchW ≠ []
      ∧ (∀ x ∈ audioBatchW, Rect x) ∧ (∀ x ∈ videoBatchW, Rect x))
    ∧ (∀ y ∈ pad_audio_batch audioBatchW, ∀ ch ∈ y, ch.length = 3)
    ∧ (∀ y ∈ crop_audio_batch audioBatchW, ∀ ch ∈ y, ch.length = 1)
    ∧ (∀ y ∈ pad_video_batch videoBatchW, ∀ ch ∈ y, ch.length = 2)
    ∧ (∀ y ∈ crop_video_batch videoBatchW, ∀ ch ∈ y, ch.length = 1) := by
  have h := C2_pad_crop_batch_shapes audioBatchW videoBatchW (by decide) (by decide)
    (by decide) (by decide)
  have hamax : batchMax (audioBatchW.map tdim) = 3 := by decide
  have hamin : batchMin (audioBatchW.map tdim) = 1 := by decide
  have hvmax : batchMax (videoBatchW.map tdim) = 2 := by decide
  have hvmin : batchMin (videoBatchW.map tdim) = 1 := by decide
  exact ⟨⟨by decide, by decide, by decide, by decide⟩,
    hamax ▸ h.2.1, hamin ▸ h.2.2.2.1, hvmax ▸ h.2.2.1, hvmin ▸ h.2.2.2.2.1⟩

/-! C7: the per-worker partition of the path list. -/

/-- C7: for every path list and worker count W of at least one, the
per-worker index ranges of _raw_clips (first = w * ceil(n / W),
last = min(first + ceil(n / W), n)) are pairwise disjoint, cover exactly the
indices 0..n-1, and the concatenation of the per-worker slices in worker
order is the whole path list: no path is processed twice and none is
skipped. -/
theorem C7_worker_partition {α : Type} (paths : List α) (W : ℕ) (hW : 1 ≤ W) :
    (∀ w₁ w₂, w₁ < W → w₂ < W → w₁ ≠ w₂ →
        Disjoint (workerRange paths.length W w₁) (workerRange paths.length W w₂))
    ∧ (Finset.range W).biUnion (workerRange paths.length W) =
        Finset.range paths.length
    ∧ ((List.range W).map (workerSlice paths W)).flatten = paths := by
  set n := paths.length with hn
  set c := per_worker n W with hc
  have key : ∀ u v : ℕ, u < v → workerLast n W u ≤ workerFirst n W v := by
    intro u v huv
    rw [workerLast, workerFirst, workerFirst]
    refine le_trans (min_le_left _ _) ?_
    have h1 : u * per_worker n W + per_worker n W = (u + 1) * per_worker n W := by ring
    rw [h1]
    exact Nat.mul_le_mul_right _ (by omega)
  have hdisj : ∀ u v : ℕ, u < v →
      Disjoint (workerRange n W u) (workerRange n W v) := by
    intro u v huv
    refine Finset.disjoint_left.mpr fun x hx hx' => ?_
    rw [workerRange, Finset.mem_Ico] at hx hx'
    exact absurd (lt_of_lt_of_le (lt_of_lt_of_le hx.2 (key u v huv)) hx'.1)
      (lt_irrefl x)
  refine ⟨fun w₁ w₂ _ _ hne => ?_, ?_, ?_⟩
  · rcases Nat.lt_or_ge w₁ w₂ with h | h
    · exact hdisj w₁ w₂ h
    · exact (hdisj w₂ w₁ (by omega)).symm
  · ext i
    simp only [Finset.mem_biUnion, Finset.mem_range, workerRange, Finset.mem_Ico]
    constructor
    · rintro ⟨w, _, _, hlt⟩
      exact lt_of_lt_of_le hlt (le_trans (min_le_right _ _) (le_refl n))
    · intro hi
      have hc0 : 0 < c := by
        rw [hc, per_worker]
        exact Nat.div_pos (by omega) (by omega)
      refine ⟨i / c, ?_, ?_, ?_⟩
      · have hle : n ≤ W * c := n_le_mul_per_worker n W hW
        exact (Nat.div_lt_iff_lt_mul hc0).mpr (by omega)
      · rw [workerFirst, ← hc]
        exact Nat.div_mul_le_self i c
      · rw [workerLast, workerFirst, ← hc]
        refine lt_min ?_ hi
        have hdm := Nat.div_add_mod i c
        have hmlt : i % c < c := Nat.mod_lt _ hc0
        obtain ⟨p, hp⟩ : ∃ p, p = c * (i / c) := ⟨_, rfl⟩
        rw [← hp] at hdm
        rw [Nat.mul_comm, ← hp]
        omega
  · rw [flatten_workerSlices paths W W, ← hn, ← hc,
      min_eq_right (n_le_mul_per_worker n W hW), hn, List.take_length]

theorem C7_witness :
    (1 : ℕ) ≤ 2
    ∧ ((List.range 2).map (workerSlice ([10, 20, 30] : List ℤ) 2)).flatten = [10, 20, 30]
    ∧ (Finset.range 2).biUnion (workerRange 3 2) = Finset.range 3 := by
  have h := C7_worker_partition ([10, 20, 30] : List ℤ) 2 (by norm_num)
  exact ⟨by norm_num, h.2.2, h.2.1⟩

/-! C9: the two-pass statistics. -/

theorem foldl_add_map {β : Type} (l : List β) (f : β → ℚ) (x : ℚ) :
    l.foldl (fun a b => a + f b) x = x + (l.map f).sum := by
  induction l generalizing x with
  | nil => simp
  | cons b t ih => simp [ih, add_assoc]

/-- C9: get_stats computes the mean as the per-channel sum of all elements
seen across the loader divided by the per-channel element count, and the
standard deviation as the square root of the per-channel sum of squared
deviations from that mean divided by the same count, for video (per colour
channel) and audio alike. -/
theorem C9_get_stats_two_pass (loader : List Batch) :
    (∀ c : Fin 3,
      (get_stats loader).video_mean c =
        (loader.map fun b => b.video c).flatten.sum /
          ((loader.map fun b => b.video c).flatten.length : ℚ)
      ∧ (get_stats loader).video_std c =
        Real.sqrt ((((loader.map fun b => b.video c).flatten.map
              fun x => (x - (get_stats loader).video_mean c) ^ 2).sum : ℚ) /
          (((loader.map fun b => b.video c).flatten.length : ℚ))))
    ∧ (get_stats loader).audio_mean =
        (loader.map fun b => b.audio).flatten.sum /
          ((loader.map fun b => b.audio).flatten.length : ℚ)
    ∧ (get_stats loader).audio_std =
        Real.sqrt ((((loader.map fun b => b.audio).flatten.map
              fun x => (x - (get_stats loader).audio_mean) ^ 2).sum : ℚ) /
          (((loader.map fun b => b.audio).flatten.length : ℚ))) := by
  have hvsum : ∀ c : Fin 3, video_sum loader c =
      (loader.map fun b => b.video c).flatten.sum := by
    intro c
    simp [video_sum, foldl_add_map, List.sum_flatten, List.map_map, Function.comp_def]
  have hvcnt : ∀ c : Fin 3, video_count loader c =
      ((loader.map fun b => b.video c).flatten.length : ℚ) := by
    intro c
    simp [video_count, foldl_add_map, List.length_flatten, List.map_map,
      Nat.cast_list_sum, Function.comp_def]
  have hvsse : ∀ c : Fin 3, video_sse loader c =
      ((loader.map fun b => b.video c).flatten.map
        fun x => (x - video_mean loader c) ^ 2).sum := by
    intro c
    simp [video_sse, foldl_add_map, List.map_flatten, List.sum_flatten,
      List.map_map, Function.comp_def]
  have hasum : audio_sum loader = (loader.map fun b => b.audio).flatten.sum := by
    simp [audio_sum, foldl_add_map, List.sum_flatten, List.map_map, Function.comp_def]
  have hacnt : audio_count loader =
      ((loader.map fun b => b.audio).flatten.length : ℚ) := by
    simp [audio_count, foldl_add_map, List.length_flatten, List.map_map,
      Nat.cast_list_sum, Function.comp_def]
  have hasse : audio_sse loader =
      ((loader.map fun b => b.audio).flatten.map
        fun x => (x - audio_mean loader) ^ 2).sum := by
    simp [audio_sse, foldl_add_map, List.map_flatten, List.sum_flatten,
      List.map_map, Function.comp_def]
  refine ⟨fun c => ⟨?_, ?_⟩, ?_, ?_⟩
  · show video_mean loader c = _
    rw [video_mean, hvsum c, hvcnt c]
  · show Real.sqrt _ = Real.sqrt _
    congr 1
    rw [hvsse c, hvcnt c]
    norm_cast
  · show audio_mean loader = _
    rw [audio_mean, hasum, hacnt]
  · show Real.sqrt _ = Real.sqrt _
    congr 1
    rw [hasse, hacnt]
    norm_cast

/-! C6: the positive-pair sampler. -/

theorem mem_enumFrom_spec {α : Type} (l : List α) :
    ∀ (n : ℕ) (p : ℕ × α), p ∈ List.enumFrom n l →
      n ≤ p.1 ∧ p.1 - n < l.length ∧ ∀ d, l.getD (p.1 - n) d = p.2 := by
  induction l with
  | nil => simp
  | cons x xs ih =>
    intro n p hp
    rw [List.enumFrom_cons] at hp
    rcases List.mem_cons.mp hp with h | h
    · subst h
      refine ⟨le_refl n, by simp, fun d => by simp⟩
    · obtain ⟨h1, h2, h3⟩ := ih (n + 1) p h
      refine ⟨by omega, by simp only [List.length_cons]; omega, fun d => ?_⟩
      rw [show p.1 - n = (p.1 - (n + 1)) + 1 from by omega, List.getD_cons_succ]
      exact h3 d

theorem filterMap_enumFrom_lt {α β : Type} (l : List α) (f : ℕ × α → β) :
    ∀ (n i : ℕ), i < n →
      (List.enumFrom n l).filterMap
        (fun jb => if jb.1 = i then some (f jb) else none) = [] := by
  induction l with
  | nil => intro n i _; simp
  | cons x xs ih =>
    intro n i hi
    rw [List.enumFrom_cons, List.filterMap_cons]
    simp only [show ¬((n, x).1 = i) from by simp; omega, if_false]
    exact ih (n + 1) i (by omega)

theorem filterMap_enumFrom_eq {α β : Type} (l : List α) (f : ℕ × α → β) (d : α) :
    ∀ (n i : ℕ), n ≤ i → i - n < l.length →
      (List.enumFrom n l).filterMap
        (fun jb => if jb.1 = i then some (f jb) else none) =
      [f (i, l.getD (i - n) d)] := by
  induction l with
  | nil => intro n i h1 h2; simp at h2
  | cons x xs ih =>
    intro n i h1 h2
    rw [List.enumFrom_cons, List.filterMap_cons]
    by_cases hni : n = i
    · subst hni
      simp only [if_pos rfl]
      rw [filterMap_enumFrom_lt xs f (n + 1) n (by omega)]
      simp
    · simp only [show ¬((n, x).1 = i) from by simp; omega, if_false]
      have h2' : i - (n + 1) < xs.length := by
        simp only [List.length_cons] at h2
        omega
      rw [ih (n + 1) i (by omega) h2']
      rw [show i - n = (i - (n + 1)) + 1 from by omega, List.getD_cons_succ]

theorem flatMap_eq_map_of {γ β : Type} (l : List γ) (f : γ → List β) (h : γ → β)
    (hfh : ∀ x ∈ l, f x = [h x]) : l.flatMap f = l.map h := by
  induction l with
  | nil => simp
  | cons x xs ih =>
    rw [List.flatMap_cons, hfh x (List.mem_cons_self x xs),
      ih fun y hy => hfh y (List.mem_cons_of_mem x hy), List.map_cons]
    rfl

theorem _positives_eq (items : List Clip) :
    _positives items = items.enum.map fun ia =>
      { video := ia.2.video, audio := ia.2.audio
      , video_idx := ia.1, audio_idx := ia.1 } := by
  simp only [_positives]
  refine flatMap_eq_map_of _ _ _ fun ia hia => ?_
  have hspec := mem_enumFrom_spec items 0 ia hia
  have hfm := filterMap_enumFrom_eq items
    (fun jb => { video := ia.2.video, audio := jb.2.audio
               , video_idx := ia.1, audio_idx := jb.1 : Pair })
    clipA 0 ia.1 (by omega) (by simpa using hspec.2.1)
  simp only [Nat.sub_zero] at hfm
  rw [show items.enum = List.enumFrom 0 items from rfl, hfm]
  have hval : items.getD (ia.1 - 0) clipA = ia.2 := hspec.2.2 clipA
  simp only [Nat.sub_zero] at hval
  rw [hval]

theorem countP_range_beq_zero (i : ℕ) :
    ∀ n, n ≤ i → (List.range n).countP (fun j => j == i) = 0 := by
  intro n
  induction n with
  | zero => intro _; simp
  | succ n ih =>
    intro h
    rw [List.range_succ, List.countP_append, ih (by omega)]
    simp only [List.countP_cons, List.countP_nil]
    simp [show ¬(n = i) from by omega]

theorem countP_range_beq (n i : ℕ) (h : i < n) :
    (List.range n).countP (fun j => j == i) = 1 := by
  induction n with
  | zero => omega
  | succ n ih =>
    rw [List.range_succ, List.countP_append]
    by_cases hi : i = n
    · subst hi
      rw [countP_range_beq_zero i i (le_refl i)]
      simp
    · rw [ih (by omega)]
      simp only [List.countP_cons, List.countP_nil]
      simp [show ¬(n = i) from by omega]

/-- C6: evidence of the behaviour of the positive-pair sampler.  The pairing
logic itself is as claimed: within every filename group g, _positives emits
exactly the pairs that match each clip's video with its own audio at equal
indices, one pair per clip index and never a pair with differing indices.
Iterating the dataset itself, however, aborts on any nonempty clip stream
because __iter__ consumes the defective _clips generator. -/
theorem C6_positive_pairs (clips : List Clip) :
    (∀ (rc : RawClip) (raw : List RawClip),
        iterDataset id (rc :: raw) = .error (.nameError "e"))
    ∧ (∀ g ∈ groupRuns (fun c => c.filename) clips,
        _positives g.2 = g.2.enum.map fun ia =>
          { video := ia.2.video, audio := ia.2.audio
          , video_idx := ia.1, audio_idx := ia.1 })
    ∧ (∀ g ∈ groupRuns (fun c => c.filename) clips, ∀ p ∈ _positives g.2,
        p.video_idx = p.audio_idx)
    ∧ (∀ g ∈ groupRuns (fun c => c.filename) clips, ∀ i, i < g.2.length →
        ((_positives g.2).countP fun p => p.video_idx == i && p.audio_idx == i) = 1) := by
  refine ⟨fun rc raw => rfl, fun g _ => _positives_eq g.2, fun g _ p hp => ?_,
    fun g _ i hi => ?_⟩
  · rw [_positives_eq] at hp
    obtain ⟨ia, _, rfl⟩ := List.mem_map.mp hp
    rfl
  · rw [_positives_eq, List.countP_map]
    have hfun : ((fun p : Pair => p.video_idx == i && p.audio_idx == i) ∘
        fun ia : ℕ × Clip =>
          ({ video := ia.2.video, audio := ia.2.audio
           , video_idx := ia.1, audio_idx := ia.1 } : Pair)) =
        fun ia : ℕ × Clip => ia.1 == i := by
      funext ia
      simp [Function.comp_def, Bool.and_self]
    rw [hfun, show (fun ia : ℕ × Clip => ia.1 == i) =
      ((fun j => j == i) ∘ Prod.fst) from rfl, ← List.countP_map,
      List.enum_map_fst]
    exact countP_range_beq _ i (by simpa using hi)

theorem C6_witness :
    iterDataset id [rawGood] = .error (.nameError "e")
    ∧ ("197_1.avi", [clipA, clipB]) ∈ groupRuns (fun c => c.filename) [clipA, clipB]
    ∧ ((_positives [clipA, clipB]).countP
        fun p => p.video_idx == 1 && p.audio_idx == 1) = 1 := by
  have h := C6_positive_pairs [clipA, clipB]
  exact ⟨h.1 rawGood [],
    by decide,
    h.2.2.2 ("197_1.avi", [clipA, clipB]) (by decide) 1 (by decide)⟩

/-! The triplet sampler: properties of pairs, groupRuns and grouped. -/

theorem pairs_length {α : Type} : ∀ (l : List α), (pairs l).length = l.length / 2
  | [] => by simp [pairs]
  | [x] => by simp [pairs]
  | x :: y :: rest => by
    simp [pairs, pairs_length rest]
    omega

theorem pairs_mem {α : Type} : ∀ (l : List α) (p : α × α), p ∈ pairs l →
    p.1 ∈ l ∧ p.2 ∈ l
  | [], p, hp => by simp [pairs] at hp
  | [x], p, hp => by simp [pairs] at hp
  | x :: y :: rest, p, hp => by
    rcases List.mem_cons.mp (by simpa [pairs] using hp) with h | h
    · subst h
      exact ⟨List.mem_cons_self _ _, List.mem_cons_of_mem _ (List.mem_cons_self _ _)⟩
    · have hm := pairs_mem rest p h
      exact ⟨List.mem_cons_of_mem _ (List.mem_cons_of_mem _ hm.1),
        List.mem_cons_of_mem _ (List.mem_cons_of_mem _ hm.2)⟩

theorem pairs_ne_of_nodup {α : Type} : ∀ (l : List α), l.Nodup → ∀ p ∈ pairs l,
    p.1 ≠ p.2
  | [], _, p, hp => by simp [pairs] at hp
  | [x], _, p, hp => by simp [pairs] at hp
  | x :: y :: rest, hnd, p, hp => by
    rcases List.mem_cons.mp (by simpa [pairs] using hp) with h | h
    · subst h
      intro hxy
      simp only at hxy
      apply (List.nodup_cons.mp hnd).1
      rw [hxy]
      exact List.mem_cons_self _ _
    · exact pairs_ne_of_nodup rest
        (((List.nodup_cons.mp hnd).2).of_cons) p h

theorem groupRuns_cons_eq {α K : Type} (key : α → K) [DecidableEq K] :
    ∀ (y : α) (rest : List α), ∃ g gs,
      groupRuns key (y :: rest) = (key y, y :: g) :: gs := by
  intro y rest
  induction rest generalizing y with
  | nil => exact ⟨[], [], rfl⟩
  | cons z rest' ih =>
    obtain ⟨g0, gs0, h0⟩ := ih z
    by_cases hk : key y = key z
    · exact ⟨z :: g0, gs0, by simp [groupRuns, h0, hk]⟩
    · exact ⟨[], (key z, z :: g0) :: gs0, by simp [groupRuns, h0, hk]⟩

theorem groupRuns_flatten {α K : Type} (key : α → K) [DecidableEq K] :
    ∀ (l : List α), ((groupRuns key l).map Prod.snd).flatten = l := by
  intro l
  induction l with
  | nil => simp [groupRuns]
  | cons x xs ih =>
    cases xs with
    | nil => simp [groupRuns]
    | cons y rest =>
      obtain ⟨g, gs, hg⟩ := groupRuns_cons_eq key y rest
      rw [hg] at ih
      simp only [List.map_cons, List.flatten_cons] at ih
      have ih' : g ++ ((gs.map Prod.snd).flatten) = rest := by
        simpa using ih
      by_cases hk : key x = key y
      · rw [show groupRuns key (x :: y :: rest) = (key x, x :: y :: g) :: gs from by
          simp [groupRuns, hg, hk]]
        simp [ih']
      · rw [show groupRuns key (x :: y :: rest) =
            (key x, [x]) :: (key y, y :: g) :: gs from by simp [groupRuns, hg, hk]]
        simp [ih']

theorem groupRuns_key_eq {α K : Type} (key : α → K) [DecidableEq K] :
    ∀ (l : List α), ∀ p ∈ groupRuns key l, ∀ a ∈ p.2, key a = p.1 := by
  intro l
  induction l with
  | nil => simp [groupRuns]
  | cons x xs ih =>
    cases xs with
    | nil =>
      intro p hp a ha
      simp only [groupRuns, List.mem_singleton] at hp
      subst hp
      simp only [List.mem_singleton] at ha
      subst ha
      rfl
    | cons y rest =>
      obtain ⟨g, gs, hg⟩ := groupRuns_cons_eq key y rest
      intro p hp a ha
      by_cases hk : key x = key y
      · rw [show groupRuns key (x :: y :: rest) = (key x, x :: y :: g) :: gs from by
          simp [groupRuns, hg, hk]] at hp
        rcases List.mem_cons.mp hp with h | h
        · subst h
          simp only at ha
          rcases List.mem_cons.mp ha with h' | h'
          · subst h'; rfl
          · have := ih (key y, y :: g) (by rw [hg]; exact List.mem_cons_self _ _) a h'
            simpa [hk] using this
        · exact ih p (by rw [hg]; exact List.mem_cons_of_mem _ h) a ha
      · rw [show groupRuns key (x :: y :: rest) =
            (key x, [x]) :: (key y, y :: g) :: gs from by simp [groupRuns, hg, hk]] at hp
        rcases List.mem_cons.mp hp with h | h
        · subst h
          simp only [List.mem_singleton] at ha
          subst ha
          rfl
        · exact ih p (by rw [hg]; exact h) a ha

theorem groupRuns_keys_lt_of_sorted {α : Type} (key : α → ℚ) :
    ∀ (l : List α), l.Pairwise (keyLe key) →
      (groupRuns key l).Pairwise (fun g h => g.1 < h.1) := by
  intro l
  induction l with
  | nil => intro _; simp [groupRuns]
  | cons x xs ih =>
    cases xs with
    | nil => intro _; simp [groupRuns]
    | cons y rest =>
      intro hs
      obtain ⟨g, gs, hg⟩ := groupRuns_cons_eq key y rest
      rw [List.pairwise_cons] at hs
      have htail := ih hs.2
      rw [hg, List.pairwise_cons] at htail
      by_cases hk : key x = key y
      · rw [show groupRuns key (x :: y :: rest) = (key x, x :: y :: g) :: gs from by
          simp [groupRuns, hg, hk]]
        rw [List.pairwise_cons]
        exact ⟨fun q hq => hk ▸ htail.1 q hq, htail.2⟩
      · rw [show groupRuns key (x :: y :: rest) =
            (key x, [x]) :: (key y, y :: g) :: gs from by simp [groupRuns, hg, hk]]
        rw [List.pairwise_cons]
        have hxy : key x < key y :=
          lt_of_le_of_ne (hs.1 y (List.mem_cons_self _ _)) hk
        refine ⟨fun q hq => ?_, by rw [List.pairwise_cons]; exact htail⟩
        rcases List.mem_cons.mp hq with h | h
        · subst h; exact hxy
        · exact lt_trans hxy (htail.1 q h)

theorem nodup_of_mem_flatten {α : Type} (L : List (List α)) (x : List α)
    (hx : x ∈ L) (h : L.flatten.Nodup) : x.Nodup := by
  induction L with
  | nil => cases hx
  | cons a L ih =>
    rw [List.flatten_cons, List.nodup_append] at h
    rcases List.mem_cons.mp hx with h' | h'
    · subst h'; exact h.1
    · exact ih h' h.2.1

/-! C1: the per-group triplet counts. -/

/-- C1: the triplet sampler groups the clips by the duration key (every
group is uniform in the key, the groups partition the input up to the sort
permutation, and distinct groups carry distinct keys), and, for every
realization of the two random choices, a group of size k yields exactly
k / 2 (floor) sampled triplets; in particular a group of size one yields
zero triplets, and no error is possible since the sampler is total. -/
theorem C1_triplet_counts (shuffle : List Clip → List Clip)
    (sample2 : Clip × Clip → Clip × Clip) (clips : List Clip)
    (hperm : ∀ l, List.Perm (shuffle l) l) :
    ((_triplets shuffle sample2 (fun x => x.duration) clips).length =
      ((grouped (fun x => x.duration) clips).map fun g => g.2.length / 2).sum)
    ∧ (∀ g ∈ grouped (fun x => x.duration) clips,
        ((pairs (shuffle g.2)).map sample2).length = g.2.length / 2)
    ∧ (∀ g ∈ grouped (fun x => x.duration) clips, ∀ x ∈ g.2, x.duration = g.1)
    ∧ List.Perm (((grouped (fun x => x.duration) clips).map Prod.snd).flatten) clips
    ∧ (grouped (fun x => x.duration) clips).Pairwise (fun g h => g.1 ≠ h.1)
    ∧ (∀ g ∈ grouped (fun x => x.duration) clips, g.2.length = 1 →
        ((pairs (shuffle g.2)).map sample2).length = 0) := by
  have hgl : ∀ g ∈ grouped (fun x => x.duration) clips,
      ((pairs (shuffle g.2)).map sample2).length = g.2.length / 2 := by
    intro g _
    rw [List.length_map, pairs_length, (hperm g.2).length_eq]
  refine ⟨?_, hgl, ?_, ?_, ?_, fun g hg h1 => by rw [hgl g hg, h1]⟩
  · rw [_triplets, List.length_flatten, List.map_map]
    exact congrArg List.sum (List.map_congr_left fun g hg => hgl g hg)
  · intro g hg x hx
    simp only [grouped] at hg
    exact groupRuns_key_eq _ _ g hg x hx
  · simp only [grouped]
    rw [groupRuns_flatten]
    exact List.perm_insertionSort _ clips
  · simp only [grouped]
    have hsorted : (sortByKey (fun x : Clip => x.duration) clips).Pairwise
        (keyLe fun x : Clip => x.duration) :=
      List.sorted_insertionSort _ clips
    exact (groupRuns_keys_lt_of_sorted _ _ hsorted).imp fun h => ne_of_lt h

theorem C1_witness :
    (∀ l : List Clip, List.Perm (id l) l)
    ∧ (_triplets id id (fun x => x.duration) [clipA, clipB, clipC]).length =
        ((grouped (fun x => x.duration) [clipA, clipB, clipC]).map
          fun g => g.2.length / 2).sum
    ∧ (_triplets id id (fun x => x.duration) [clipA]).length = 0 := by
  refine ⟨fun l => List.Perm.refl l,
    (C1_triplet_counts id id [clipA, clipB, clipC] fun l => List.Perm.refl l).1, ?_⟩
  decide

/-! C3: distinctness and duration matching inside every emitted triplet. -/

/-- C3: for pairwise-distinct input clips and every realization of the two
random choices, every Triplet emitted by triplets() takes its positive from
one source clip and its negative from a different source clip, and the two
clips have equal durations (the distractor shares the anchor's duration
bucket). -/
theorem C3_triplet_distinct_same_duration (shuffle : List Clip → List Clip)
    (sample2 : Clip × Clip → Clip × Clip) (clips : List Clip)
    (hperm : ∀ l, List.Perm (shuffle l) l)
    (hs : ∀ p, sample2 p = p ∨ sample2 p = (p.2, p.1))
    (hnd : clips.Nodup) :
    ∀ t ∈ triplets shuffle sample2 clips, ∃ a b : Clip,
      a ∈ clips ∧ b ∈ clips ∧ a ≠ b ∧ a.duration = b.duration
      ∧ t.anchor = a.audio ∧ t.positive = a.video ∧ t.negative = b.video := by
  intro t ht
  rw [triplets] at ht
  obtain ⟨td, htd, rfl⟩ := List.mem_map.mp ht
  rw [_triplets] at htd
  obtain ⟨gl, hgl, htd2⟩ := List.mem_flatten.mp htd
  obtain ⟨g, hg, rfl⟩ := List.mem_map.mp hgl
  obtain ⟨p, hp, rfl⟩ := List.mem_map.mp htd2
  simp only [grouped] at hg
  have hsortNd : (sortByKey (fun x : Clip => x.duration) clips).Nodup :=
    hnd.perm (List.perm_insertionSort _ clips).symm
  have hgNd : g.2.Nodup :=
    nodup_of_mem_flatten _ g.2 (List.mem_map_of_mem Prod.snd hg)
      (by rw [groupRuns_flatten]; exact hsortNd)
  have hshufNd : (shuffle g.2).Nodup := hgNd.perm (hperm g.2).symm
  have hne := pairs_ne_of_nodup _ hshufNd p hp
  have hmem := pairs_mem _ p hp
  have hm1 : p.1 ∈ g.2 := (hperm g.2).subset hmem.1
  have hm2 : p.2 ∈ g.2 := (hperm g.2).subset hmem.2
  have hd1 : p.1.duration = g.1 := groupRuns_key_eq _ _ g hg p.1 hm1
  have hd2 : p.2.duration = g.1 := groupRuns_key_eq _ _ g hg p.2 hm2
  have hclips : ∀ z, z ∈ g.2 → z ∈ clips := by
    intro z hz
    have hzf : z ∈ ((groupRuns (fun x : Clip => x.duration)
        (sortByKey (fun x : Clip => x.duration) clips)).map Prod.snd).flatten :=
      List.mem_flatten.mpr ⟨g.2, List.mem_map_of_mem Prod.snd hg, hz⟩
    rw [groupRuns_flatten] at hzf
    exact (List.perm_insertionSort _ clips).subset hzf
  rcases hs p with h | h
  · exact ⟨p.1, p.2, hclips _ hm1, hclips _ hm2, hne, hd1.trans hd2.symm,
      by rw [h], by rw [h], by rw [h]⟩
  · exact ⟨p.2, p.1, hclips _ hm2, hclips _ hm1, fun hq => hne hq.symm,
      hd2.trans hd1.symm, by rw [h], by rw [h], by rw [h]⟩

theorem C3_witness :
    ([clipA, clipB] : List Clip).Nodup
    ∧ ∀ t ∈ triplets id id [clipA, clipB], ∃ a b : Clip,
        a ∈ [clipA, clipB] ∧ b ∈ [clipA, clipB] ∧ a ≠ b ∧ a.duration = b.duration
        ∧ t.anchor = a.audio ∧ t.positive = a.video ∧ t.negative = b.video :=
  ⟨by decide, C3_triplet_distinct_same_duration id id [clipA, clipB]
    (fun l => List.Perm.refl l) (fun p => Or.inl rfl) (by decide)⟩

/-! C10: cached dataset length and item access. -/

/-- C10: for a cache directory as produced at construction time (settings.json
plus one i.pt file per cached item), len(dataset) equals the number of "*.pt"
item files; getitem(idx) raises IndexError for idx at or past that length,
without attempting to load a file, and loads the idx-th cached item for
smaller idx. -/
theorem C10_cached_length_getitem {α : Type} (settingsBlob d : α) (items : List α) :
    datasetLength (cachedDir settingsBlob items) = items.length
    ∧ (∀ idx, items.length ≤ idx →
        getitem (cachedDir settingsBlob items) idx =
          .error (.indexError "Index out of range"))
    ∧ (∀ idx, idx < items.length →
        getitem (cachedDir settingsBlob items) idx = .ok (items.getD idx d)) := by
  have hlen : datasetLength (cachedDir settingsBlob items) = items.length := by
    simp [cachedDir, datasetLength, globPt, isPtFile, List.filter_map,
      Function.comp_def]
  refine ⟨hlen, fun idx hidx => ?_, fun idx hidx => ?_⟩
  · rw [getitem, if_pos (by omega : idx ≥ datasetLength (cachedDir settingsBlob items))]
  · rw [getitem, if_neg (by omega : ¬ idx ≥ datasetLength (cachedDir settingsBlob items))]
    have hfind := find?_enumFrom_pt items 0 idx d (by omega)
    rw [show (0 : ℕ) + idx = idx from by omega] at hfind
    have henum : items.enum = List.enumFrom 0 items := rfl
    have hload : torchLoad (cachedDir settingsBlob items) (.pt idx) =
        some (items.getD idx d) := by
      rw [torchLoad, cachedDir]
      simp only [List.find?, henum]
      rw [hfind]
      have hb2 : (FileName.other "settings.json" == FileName.pt idx) = false := by
        simp [beq_eq_false_iff_ne]
      simp [hb2]
    rw [hload]

theorem C10_witness :
    datasetLength (cachedDir (0 : ℤ) [7, 8]) = 2
    ∧ getitem (cachedDir (0 : ℤ) [7, 8]) 2 = .error (.indexError "Index out of range")
    ∧ getitem (cachedDir (0 : ℤ) [7, 8]) 1 = .ok 8 := by
  have h := C10_cached_length_getitem (0 : ℤ) 0 [7, 8]
  exact ⟨h.1, h.2.1 2 (by norm_num), by simpa using h.2.2 1 (by norm_num)⟩

end PeppaPig
